import Mathlib

/-!
Verification of the path-to-module-path translator and the symbol-name
extractor of the python-import-copier repository (src/core.ts), embedded
shallowly at the level of character lists.  Paths follow the POSIX
semantics of the Node `path` library that the source calls
(`path.relative`, `path.dirname`, `path.basename`, `path.extname`,
`path.normalize`, `path.isAbsolute`); `process.cwd()` is modelled as an
explicit `cwd` argument and `process.platform` as an explicit
`procPlatform` argument.
-/

namespace PyImport

/-- The forward slash path separator. -/
def slash : Char := '/'

/-- The backslash character (a regular character for POSIX path functions,
but a separator for the repository's own `splitPath`). -/
def bslash : Char := '\\'

/-- The dot character. -/
def dotC : Char := '.'

/-- Separator class used by the repository's `splitPath` and by the
trailing/leading-separator stripping regex of `normalizeSourceRoot`:
one of `/` or `\`. -/
def isSepChar (c : Char) : Bool := c == slash || c == bslash

/-- The JavaScript whitespace class (`\s`, also the set trimmed by
`String.prototype.trim`). -/
def jsIsSpace (c : Char) : Bool :=
  c == ' ' || c == '\t' || c == '\n' || c.val == 11 || c.val == 12 ||
  c == '\r' || c.val == 0xa0 || c.val == 0x1680 ||
  (0x2000 ≤ c.val && c.val ≤ 0x200a) || c.val == 0x2028 || c.val == 0x2029 ||
  c.val == 0x202f || c.val == 0x205f || c.val == 0x3000 || c.val == 0xfeff

/-- JavaScript `String.prototype.trim`: drop leading and trailing
whitespace. -/
def jsTrim (l : List Char) : List Char :=
  ((l.dropWhile jsIsSpace).reverse.dropWhile jsIsSpace).reverse

/-- Split a character list at every character satisfying `p`, keeping
empty pieces (the behaviour of JavaScript `split` on a single-character
class). -/
def splitOnPred (p : Char → Bool) : List Char → List (List Char)
  | [] => [[]]
  | c :: cs =>
    if p c then [] :: splitOnPred p cs
    else (c :: (splitOnPred p cs).headI) :: (splitOnPred p cs).tail

/-- Join pieces with a single separator character (JavaScript
`Array.prototype.join` with a one-character separator). -/
def joinSep (sep : Char) : List (List Char) → List Char
  | [] => []
  | [x] => x
  | x :: y :: ys => x ++ sep :: joinSep sep (y :: ys)

/-- The `..` path segment. -/
def dotDotSeg : List Char := [dotC, dotC]

/-- Node `path.posix.isAbsolute`: the path starts with `/`. -/
def posixIsAbsolute (p : List Char) : Bool := p.head? == some slash

/-- One step of Node's `normalizeString` segment processing: skip empty
and `.` segments; on `..` pop the previous segment unless it is itself a
kept `..`, otherwise keep the `..` only when `allowAboveRoot`. -/
def normSegsStep (allowAboveRoot : Bool) (acc : List (List Char))
    (seg : List Char) : List (List Char) :=
  if seg == [] || seg == [dotC] then acc
  else if seg == dotDotSeg then
    if !(acc == []) && !(acc.getLast? == some dotDotSeg) then acc.dropLast
    else if allowAboveRoot then acc ++ [dotDotSeg]
    else acc
  else acc ++ [seg]

/-- Node's `normalizeString` over a segment list. -/
def normSegs (allowAboveRoot : Bool) (segs : List (List Char)) :
    List (List Char) :=
  segs.foldl (normSegsStep allowAboveRoot) []

/-- A segment kept verbatim by normalization: non-empty, not `.`, not
`..`. -/
def isGoodSeg (x : List Char) : Bool :=
  !(x == []) && !(x == [dotC]) && !(x == dotDotSeg)

/-- Shape of a `normSegs` result: leading `..` segments followed by
verbatim segments. -/
def ShapeOk (l : List (List Char)) : Prop :=
  ∃ k regs, l = List.replicate k dotDotSeg ++ regs ∧
    ∀ x ∈ regs, isGoodSeg x = true

/-- Raw split of a POSIX path on `/` (empty pieces kept; `normSegs`
skips them). -/
def posixSplit (p : List Char) : List (List Char) :=
  splitOnPred (· == slash) p

/-- Node `path.posix.normalize`. -/
def pathNormalize (p : List Char) : List Char :=
  if p == [] then [dotC]
  else if joinSep slash (normSegs (!posixIsAbsolute p) (posixSplit p)) ==
      [] then
    (if posixIsAbsolute p then [slash]
     else if p.getLast? == some slash then [dotC, slash]
     else [dotC])
  else
    (if posixIsAbsolute p then [slash] else []) ++
    joinSep slash (normSegs (!posixIsAbsolute p) (posixSplit p)) ++
    (if p.getLast? == some slash then [slash] else [])

/-- The segments of Node `path.posix.resolve cwd p` (always an absolute
path when `cwd` is absolute): resolve `p` against the working directory
and normalize without keeping `..` above the root. -/
def resolveSegs (cwd p : List Char) : List (List Char) :=
  normSegs false
    (posixSplit (if posixIsAbsolute p then p else cwd ++ slash :: p))

/-- Length of the longest common prefix of two segment lists. -/
def commonPrefixLen : List (List Char) → List (List Char) → Nat
  | x :: xs, y :: ys => if x == y then commonPrefixLen xs ys + 1 else 0
  | _, _ => 0

/-- Node `path.posix.relative from to` (with the working directory made
explicit): resolve both paths, drop the common segments, climb with `..`
for each remaining `from` segment and descend into the remaining `to`
segments. -/
def posixRelative (cwd fromPath toPath : List Char) : List Char :=
  if fromPath == toPath then []
  else
    (let F := resolveSegs cwd fromPath
     let T := resolveSegs cwd toPath
     if F == T then []
     else
       joinSep slash
         (List.replicate (F.length - commonPrefixLen F T) dotDotSeg ++
          T.drop (commonPrefixLen F T)))

/-- Node `path.posix.dirname`. -/
def posixDirname (p : List Char) : List Char :=
  if p == [] then [dotC]
  else
    (let hasRoot := p.head? == some slash
     let rev2 := ((p.reverse.dropWhile (· == slash)).dropWhile (· != slash))
     if rev2.length ≤ 1 then (if hasRoot then [slash] else [dotC])
     else if hasRoot && rev2.length == 2 then [slash, slash]
     else rev2.tail.reverse)

/-- Node `path.posix.basename` (one-argument form): the final non-empty
path component, ignoring trailing slashes. -/
def posixBasename (p : List Char) : List Char :=
  ((p.reverse.dropWhile (· == slash)).takeWhile (· != slash)).reverse

/-- The extension of a single slash-free path component, per Node
`path.extname`: the suffix from the last dot, empty when there is no dot,
when the dot is the first character, or when the component is exactly
`..`. -/
def extnameSuffix (b : List Char) : List Char :=
  if (b.reverse.takeWhile (· != dotC)).length == b.length then []
  else if (b.length - (b.reverse.takeWhile (· != dotC)).length - 1 == 0)
      || b == dotDotSeg then []
  else b.drop (b.length - (b.reverse.takeWhile (· != dotC)).length - 1)

/-- Node `path.posix.extname`. -/
def posixExtname (p : List Char) : List Char :=
  extnameSuffix ((p.reverse.dropWhile (· == slash)).takeWhile (· != slash)).reverse

/-! ### The repository's own core functions (src/core.ts) -/

/-- Strip every leading and trailing run of `/` or `\` characters — the
`replace(/^([/\\])+|([/\\])+$/g, '')` of `normalizeSourceRoot`. -/
def stripEdgeSeps (l : List Char) : List Char :=
  ((l.dropWhile isSepChar).reverse.dropWhile isSepChar).reverse

/-- `normalizeSourceRoot` from src/core.ts: trim, return empty for an
empty setting, otherwise `path.normalize` and strip leading/trailing
separator runs. -/
def normalizeSourceRoot (raw : List Char) : List Char :=
  if jsTrim raw == [] then []
  else stripEdgeSeps (pathNormalize (jsTrim raw))

/-- `splitPath` from src/core.ts: empty input or `.` gives no segments,
otherwise split on runs of `/` or `\` discarding empty segments. -/
def splitPath (input : List Char) : List (List Char) :=
  if input == [] || input == [dotC] then []
  else (splitOnPred isSepChar input).filter (fun x => !(x == []))

/-- Lowercase a segment character-wise (`String.prototype.toLowerCase`
restricted to ASCII case mapping). -/
def lowerSeg (x : List Char) : List Char := x.map Char.toLower

/-- `hasPrefix` from src/core.ts: an empty or over-long candidate never
matches; otherwise compare element-wise, lowercasing both sides when
`caseSensitive` is false. -/
def hasPrefixSegs (input pre : List (List Char)) (caseSensitive : Bool) :
    Bool :=
  if pre == [] || decide (input.length < pre.length) then false
  else
    ((input.take pre.length).zip pre).all
      (fun ab =>
        (if caseSensitive then ab.1 else lowerSeg ab.1) ==
        (if caseSensitive then ab.2 else lowerSeg ab.2))

/-- First character of a bare Python identifier: `[A-Za-z_]`. -/
def isIdentStart (c : Char) : Bool :=
  (('A' ≤ c) && (c ≤ 'Z')) || (('a' ≤ c) && (c ≤ 'z')) || c == '_'

/-- Later character of a bare Python identifier: `[A-Za-z0-9_]`. -/
def isIdentChar (c : Char) : Bool :=
  isIdentStart c || (('0' ≤ c) && (c ≤ '9'))

/-- `isValidPythonIdentifier` from src/core.ts: the whole string matches
`[A-Za-z_][A-Za-z0-9_]*`. -/
def isValidPythonIdentifier : List Char → Bool
  | [] => false
  | c :: cs => isIdentStart c && cs.all isIdentChar

/-- The options bundle of `toPythonModulePath`. -/
structure ToPythonModulePathOptions where
  workspacePackageName : Option (List Char)
  platform : Option (List Char)

/-- The `.py` extension. -/
def pyExt : List Char := ".py".toList

/-- The `.pyi` extension. -/
def pyiExt : List Char := ".pyi".toList

/-- The package-initializer stem. -/
def initStem : List Char := "__init__".toList

/-- The Windows platform identifier. -/
def win32S : List Char := "win32".toList

/-- `path.relative(workspaceRootPath, filePath)` as the source computes
it. -/
def relPathOf (cwd rootPath filePath : List Char) : List Char :=
  posixRelative cwd rootPath filePath

/-- The guard of `toPythonModulePath`: the relative path is empty,
starts with `..`, or is absolute. -/
def outsideRoot (rel : List Char) : Bool :=
  rel == [] || rel.take 2 == dotDotSeg || posixIsAbsolute rel

/-- `path.extname(baseName).toLowerCase()` of the relative path's base
name. -/
def extOfRel (rel : List Char) : List Char :=
  lowerSeg (posixExtname (posixBasename rel))

/-- The file stem: the base name with the extension removed
(`baseName.slice(0, -ext.length)`), or the whole base name when the
extension is empty. -/
def stemOfRel (rel : List Char) : List Char :=
  let b := posixBasename rel
  let e := extOfRel rel
  if e == [] then b else b.take (b.length - e.length)

/-- The recognized source-file extensions: `.py` or `.pyi`. -/
def isPythonExt (e : List Char) : Bool := e == pyExt || e == pyiExt

/-- The directory segments of the relative path with a configured,
matching source root stripped: `splitPath(relativeDir)` followed by the
`hasPrefix`/`splice` step, with case sensitivity
`(options.platform ?? process.platform) !== 'win32'`. -/
def strippedSegments (rel sourceRoot : List Char)
    (options : ToPythonModulePathOptions) (procPlatform : List Char) :
    List (List Char) :=
  let segments := splitPath (posixDirname rel)
  if sourceRoot == [] then segments
  else
    (let sourceSegments := splitPath sourceRoot
     let caseSensitive := !((options.platform.getD procPlatform) == win32S)
     if hasPrefixSegs segments sourceSegments caseSensitive then
       segments.drop sourceSegments.length
     else segments)

/-- The root-level-initializer fallback: the trimmed
`workspacePackageName` when it is non-empty and a valid bare identifier,
otherwise no result. -/
def workspaceFallback (options : ToPythonModulePathOptions) :
    Option (List Char) :=
  match options.workspacePackageName with
  | none => none
  | some w =>
    (let tw := jsTrim w
     if !(tw == []) && isValidPythonIdentifier tw then some tw else none)

/-- `toPythonModulePath` from src/core.ts, with the working directory
and `process.platform` explicit. -/
def toPythonModulePath (cwd filePath rootPath sourceRoot : List Char)
    (options : ToPythonModulePathOptions) (procPlatform : List Char) :
    Option (List Char) :=
  if outsideRoot (relPathOf cwd rootPath filePath) then none
  else if !(isPythonExt (extOfRel (relPathOf cwd rootPath filePath))) then
    none
  else if stemOfRel (relPathOf cwd rootPath filePath) == initStem then
    (if !(strippedSegments (relPathOf cwd rootPath filePath) sourceRoot
            options procPlatform == []) then
       some (joinSep dotC
         (strippedSegments (relPathOf cwd rootPath filePath) sourceRoot
           options procPlatform))
     else workspaceFallback options)
  else
    (if !((strippedSegments (relPathOf cwd rootPath filePath) sourceRoot
             options procPlatform ++
           [stemOfRel (relPathOf cwd rootPath filePath)]) == []) then
       some (joinSep dotC
         (strippedSegments (relPathOf cwd rootPath filePath) sourceRoot
            options procPlatform ++
          [stemOfRel (relPathOf cwd rootPath filePath)]))
     else none)

/-- The segment sequence whose dot-join is the defined result of
`toPythonModulePath` outside the workspace-name fallback: the stripped
directory segments, with the stem appended for a non-initializer file. -/
def finalSegsOf (cwd filePath rootPath sourceRoot : List Char)
    (options : ToPythonModulePathOptions) (procPlatform : List Char) :
    List (List Char) :=
  if stemOfRel (relPathOf cwd rootPath filePath) == initStem then
    strippedSegments (relPathOf cwd rootPath filePath) sourceRoot options
      procPlatform
  else
    strippedSegments (relPathOf cwd rootPath filePath) sourceRoot options
      procPlatform ++ [stemOfRel (relPathOf cwd rootPath filePath)]

/-! ### The symbol-name extractor (src/core.ts `extractSymbolNameFromLine`) -/

/-- The `async` keyword. -/
def asyncKw : List Char := "async".toList

/-- The `def` keyword. -/
def defKw : List Char := "def".toList

/-- The `class` keyword. -/
def classKw : List Char := "class".toList

/-- Skip `\s*`. -/
def skipWs (l : List Char) : List Char := l.dropWhile jsIsSpace

/-- Match `\s+`: at least one whitespace character, consumed greedily. -/
def skipWs1 : List Char → Option (List Char)
  | [] => none
  | c :: cs => if jsIsSpace c then some (cs.dropWhile jsIsSpace) else none

/-- Match a literal keyword at the front of the input. -/
def matchLit (lit l : List Char) : Option (List Char) :=
  if l.take lit.length == lit then some (l.drop lit.length) else none

/-- Match `[A-Za-z_][A-Za-z0-9_]*` greedily, returning the captured
identifier and the rest of the input. -/
def takeIdent : List Char → Option (List Char × List Char)
  | [] => none
  | c :: cs =>
    if isIdentStart c then
      some (c :: cs.takeWhile isIdentChar, cs.dropWhile isIdentChar)
    else none

/-- The common tail `([A-Za-z_][A-Za-z0-9_]*)\s*\(` of the function
patterns. -/
def matchFnTail (l : List Char) : Option (List Char) :=
  match takeIdent l with
  | none => none
  | some (id, rest) =>
    match (skipWs rest).head? with
    | some c => if c == '(' then some id else none
    | none => none

/-- Pattern 1: `^\s*async\s+def\s+([A-Za-z_][A-Za-z0-9_]*)\s*\(`. -/
def matchAsyncDef (line : List Char) : Option (List Char) :=
  match matchLit asyncKw (skipWs line) with
  | none => none
  | some r1 =>
    match skipWs1 r1 with
    | none => none
    | some r2 =>
      match matchLit defKw r2 with
      | none => none
      | some r3 =>
        match skipWs1 r3 with
        | none => none
        | some r4 => matchFnTail r4

/-- Pattern 2: `^\s*def\s+([A-Za-z_][A-Za-z0-9_]*)\s*\(`. -/
def matchDefPat (line : List Char) : Option (List Char) :=
  match matchLit defKw (skipWs line) with
  | none => none
  | some r1 =>
    match skipWs1 r1 with
    | none => none
    | some r2 => matchFnTail r2

/-- Pattern 3: `^\s*class\s+([A-Za-z_][A-Za-z0-9_]*)\s*[\(:]`. -/
def matchClassPat (line : List Char) : Option (List Char) :=
  match matchLit classKw (skipWs line) with
  | none => none
  | some r1 =>
    match skipWs1 r1 with
    | none => none
    | some r2 =>
      match takeIdent r2 with
      | none => none
      | some (id, rest) =>
        match (skipWs rest).head? with
        | some c => if c == '(' || c == ':' then some id else none
        | none => none

/-- Pattern 4: `^\s*([A-Za-z_][A-Za-z0-9_]*)\s*(?::[^=]+)?=`: after the
identifier and optional whitespace, either `=` directly, or `:` followed
by at least one non-`=` character and then `=`. -/
def matchAssign (line : List Char) : Option (List Char) :=
  match takeIdent (skipWs line) with
  | none => none
  | some (id, rest) =>
    match skipWs rest with
    | [] => none
    | c :: r2 =>
      if c == '=' then some id
      else if c == ':' then
        (let run := r2.takeWhile (· != '=')
         if !(run == []) && decide (run.length < r2.length) then some id
         else none)
      else none

/-- Pattern 5: `^\s*([A-Za-z_][A-Za-z0-9_]*)\s*:\s*[^=]+$`: after the
identifier, optional whitespace and `:`, the remainder is non-empty and
contains no `=`. -/
def matchAnnotated (line : List Char) : Option (List Char) :=
  match takeIdent (skipWs line) with
  | none => none
  | some (id, rest) =>
    match skipWs rest with
    | [] => none
    | c :: r2 =>
      if c == ':' && !(r2 == []) && r2.all (· != '=') then some id
      else none

/-- `extractSymbolNameFromLine` from src/core.ts: try the five patterns
in order, returning the first captured identifier. -/
def extractSymbolNameFromLine (line : List Char) : Option (List Char) :=
  match matchAsyncDef line with
  | some n => some n
  | none =>
    match matchDefPat line with
    | some n => some n
    | none =>
      match matchClassPat line with
      | some n => some n
      | none =>
        match matchAssign line with
        | some n => some n
        | none => matchAnnotated line

/-! ### Helper lemmas -/

/-- The platform option is only consulted through the comparison with
`win32`, so two explicit platforms on the same side of that comparison
strip the source root identically. -/
theorem strippedSegments_platform_eq (rel sr : List Char)
    (wpn : Option (List Char)) (proc p q : List Char)
    (h : (p == win32S) = (q == win32S)) :
    strippedSegments rel sr ⟨wpn, some p⟩ proc =
    strippedSegments rel sr ⟨wpn, some q⟩ proc := by
  dsimp only [strippedSegments, Option.getD]
  rw [h]

/-- An explicit platform option makes `toPythonModulePath` ignore the
ambient platform. -/
theorem toPythonModulePath_platform_getD (cwd f r sr : List Char)
    (wpn : Option (List Char)) (p proc : List Char) :
    toPythonModulePath cwd f r sr ⟨wpn, some p⟩ proc =
    toPythonModulePath cwd f r sr ⟨wpn, none⟩ p := rfl

/-- Two explicit platforms on the same side of the `win32` comparison
give the same module path. -/
theorem toPythonModulePath_platform_eq (cwd f r sr : List Char)
    (wpn : Option (List Char)) (proc p q : List Char)
    (h : (p == win32S) = (q == win32S)) :
    toPythonModulePath cwd f r sr ⟨wpn, some p⟩ proc =
    toPythonModulePath cwd f r sr ⟨wpn, some q⟩ proc := by
  unfold toPythonModulePath
  rw [strippedSegments_platform_eq _ _ _ _ _ _ h]
  rw [show workspaceFallback ⟨wpn, some p⟩ = workspaceFallback ⟨wpn, some q⟩
        from rfl]

/-! ### Claim theorems -/

/-- C5: `extractSymbolNameFromLine` applies the five declaration
patterns in the fixed order (async function, plain function, class,
assignment with optional annotation, bare annotation) and returns the
identifier captured by the first pattern that matches; when no pattern
matches it returns no result. -/
theorem extractSymbolNameFromLine_first_match (line : List Char) :
    (∀ name,
      extractSymbolNameFromLine line = some name ↔
        (matchAsyncDef line = some name ∨
         (matchAsyncDef line = none ∧ matchDefPat line = some name) ∨
         (matchAsyncDef line = none ∧ matchDefPat line = none ∧
          matchClassPat line = some name) ∨
         (matchAsyncDef line = none ∧ matchDefPat line = none ∧
          matchClassPat line = none ∧ matchAssign line = some name) ∨
         (matchAsyncDef line = none ∧ matchDefPat line = none ∧
          matchClassPat line = none ∧ matchAssign line = none ∧
          matchAnnotated line = some name))) ∧
    (extractSymbolNameFromLine line = none ↔
      (matchAsyncDef line = none ∧ matchDefPat line = none ∧
       matchClassPat line = none ∧ matchAssign line = none ∧
       matchAnnotated line = none)) := by
  cases h1 : matchAsyncDef line <;> cases h2 : matchDefPat line <;>
    cases h3 : matchClassPat line <;> cases h4 : matchAssign line <;>
      simp [extractSymbolNameFromLine, h1, h2, h3, h4]

/-- C8: `toPythonModulePath` trims surrounding whitespace from the
`workspacePackageName` option before validating it, so a root-level
initializer with the name `" workspace "` produces the module path
`workspace` even though the untrimmed name does not match the
bare-identifier pattern. -/
theorem toPythonModulePath_trims_workspace_name :
    toPythonModulePath ("/w".toList) ("/root/__init__.py".toList)
        ("/root".toList) [] ⟨some (" workspace ".toList), none⟩
        ("linux".toList) = some ("workspace".toList) ∧
    jsTrim (" workspace ".toList) = "workspace".toList ∧
    isValidPythonIdentifier (" workspace ".toList) = false ∧
    isValidPythonIdentifier ("workspace".toList) = true := by decide

/-- C9: a file inside the root whose base name is exactly `.py` or
`.pyi` gets no module path, because `path.extname` of such a name is
empty and the file is therefore not recognized as a source file. -/
theorem toPythonModulePath_dotfile_none :
    toPythonModulePath ("/w".toList) ("/root/pkg/.py".toList)
        ("/root".toList) [] ⟨none, none⟩ ("linux".toList) = none ∧
    toPythonModulePath ("/w".toList) ("/root/pkg/.pyi".toList)
        ("/root".toList) [] ⟨none, none⟩ ("linux".toList) = none ∧
    posixExtname (".py".toList) = [] ∧
    posixExtname (".pyi".toList) = [] ∧
    outsideRoot (relPathOf ("/w".toList) ("/root".toList)
      ("/root/pkg/.py".toList)) = false := by decide

/-- C10: `normalizeSourceRoot` resolves current-directory and
parent-directory segments, not only separator runs. -/
theorem normalizeSourceRoot_resolves_dots :
    normalizeSourceRoot ("a/../src".toList) = "src".toList ∧
    normalizeSourceRoot ("./src".toList) = "src".toList := by decide

/-- C7 counterexample: `normalizeSourceRoot` is not idempotent: a
trailing separator protects a whitespace-ended segment on the first
pass, and the second pass trims that whitespace. -/
theorem normalizeSourceRoot_not_idempotent :
    normalizeSourceRoot (normalizeSourceRoot ("a /".toList)) ≠
      normalizeSourceRoot ("a /".toList) ∧
    normalizeSourceRoot ("a /".toList) = "a ".toList ∧
    normalizeSourceRoot ("a ".toList) = "a".toList := by decide

/-- C4 counterexample: a defined module path can contain a backslash:
on a POSIX platform a backslash in the file name survives into the
stem, so the result is not free of path-separator characters. -/
theorem toPythonModulePath_backslash_cex :
    toPythonModulePath ("/w".toList) ("/root/a\\b.py".toList)
        ("/root".toList) [] ⟨none, none⟩ ("linux".toList) =
      some ("a\\b".toList) ∧
    bslash ∈ "a\\b".toList := by decide

/-- C2 counterexample: for a root-level initializer, a supplied
`workspacePackageName` that does not match the bare-identifier pattern
(because of surrounding whitespace) is not rejected: the trimmed name is
returned instead of the undefined result the claim prescribes. -/
theorem toPythonModulePath_untrimmed_name_cex :
    toPythonModulePath ("/w".toList) ("/root/__init__.py".toList)
        ("/root".toList) [] ⟨some (" workspace ".toList), none⟩
        ("linux".toList) = some ("workspace".toList) ∧
    isValidPythonIdentifier (" workspace ".toList) = false ∧
    " workspace ".toList ≠ "workspace".toList := by decide

/-- C3: case sensitivity of source-root stripping: an explicit platform
option overrides the ambient platform, matching is case-insensitive
exactly for the `win32` platform and case-sensitive for every other
platform, and the spec's concrete example holds. -/
theorem toPythonModulePath_case_sensitivity :
    (∀ cwd f r sr wpn p proc proc',
      toPythonModulePath cwd f r sr ⟨wpn, some p⟩ proc =
      toPythonModulePath cwd f r sr ⟨wpn, some p⟩ proc') ∧
    (∀ p, toPythonModulePath ("/w".toList)
        ("/root/src/mypkg/utils.py".toList) ("/root".toList)
        ("Src".toList) ⟨none, some p⟩ ("linux".toList) =
      some (if p = win32S then "mypkg.utils".toList
            else "src.mypkg.utils".toList)) ∧
    (∀ proc, toPythonModulePath ("/w".toList)
        ("/root/src/mypkg/utils.py".toList) ("/root".toList)
        ("Src".toList) ⟨none, none⟩ proc =
      some (if proc = win32S then "mypkg.utils".toList
            else "src.mypkg.utils".toList)) ∧
    toPythonModulePath ("/w".toList) ("/root/src/mypkg/utils.py".toList)
        ("/root".toList) ("Src".toList) ⟨none, some ("win32".toList)⟩
        ("linux".toList) = some ("mypkg.utils".toList) := by
  have key : ∀ p, toPythonModulePath ("/w".toList)
      ("/root/src/mypkg/utils.py".toList) ("/root".toList)
      ("Src".toList) ⟨none, some p⟩ ("linux".toList) =
      some (if p = win32S then "mypkg.utils".toList
            else "src.mypkg.utils".toList) := by
    intro p
    cases hcs : (p == win32S) with
    | true =>
      have hp : p = win32S := by simpa using hcs
      subst hp
      decide
    | false =>
      have hp : p ≠ win32S := by simpa using hcs
      rw [if_neg hp]
      rw [toPythonModulePath_platform_eq ("/w".toList)
        ("/root/src/mypkg/utils.py".toList) ("/root".toList)
        ("Src".toList) none ("linux".toList) p ("linux".toList)
        (by rw [hcs]; decide)]
      decide
  refine ⟨?_, key, ?_, ?_⟩
  · intro cwd f r sr wpn p proc proc'
    rfl
  · intro proc
    rw [show (toPythonModulePath ("/w".toList)
      ("/root/src/mypkg/utils.py".toList) ("/root".toList)
      ("Src".toList) ⟨none, none⟩ proc) = toPythonModulePath ("/w".toList)
      ("/root/src/mypkg/utils.py".toList) ("/root".toList)
      ("Src".toList) ⟨none, some proc⟩ ("linux".toList) from rfl]
    exact key proc
  · exact key ("win32".toList)

/-- C1: `toPythonModulePath` returns no result exactly when the file is
not strictly inside the root (relative path empty, starting with `..`,
or absolute), or the lowercased extension is not `.py`/`.pyi`, or the
file is an `__init__` whose directory segments are empty after
source-root stripping and the workspace-name fallback is unavailable. -/
theorem toPythonModulePath_none_iff (cwd f r sr : List Char)
    (opts : ToPythonModulePathOptions) (proc : List Char) :
    toPythonModulePath cwd f r sr opts proc = none ↔
      ((relPathOf cwd r f = [] ∨ (relPathOf cwd r f).take 2 = dotDotSeg ∨
        posixIsAbsolute (relPathOf cwd r f) = true) ∨
       isPythonExt (extOfRel (relPathOf cwd r f)) = false ∨
       (stemOfRel (relPathOf cwd r f) = initStem ∧
        strippedSegments (relPathOf cwd r f) sr opts proc = [] ∧
        workspaceFallback opts = none)) := by
  have hout : outsideRoot (relPathOf cwd r f) = true ↔
      (relPathOf cwd r f = [] ∨ (relPathOf cwd r f).take 2 = dotDotSeg ∨
       posixIsAbsolute (relPathOf cwd r f) = true) := by
    simp [outsideRoot, or_assoc]
  rcases Bool.eq_false_or_eq_true (outsideRoot (relPathOf cwd r f)) with
    h1 | h1
  · have hL : toPythonModulePath cwd f r sr opts proc = none := by
      unfold toPythonModulePath
      simp [h1]
    rw [hL]
    exact iff_of_true rfl (Or.inl (hout.mp h1))
  · have hD1 : ¬(relPathOf cwd r f = [] ∨
        (relPathOf cwd r f).take 2 = dotDotSeg ∨
        posixIsAbsolute (relPathOf cwd r f) = true) := by
      intro hd
      rw [hout.mpr hd] at h1
      cases h1
    rcases Bool.eq_false_or_eq_true
        (isPythonExt (extOfRel (relPathOf cwd r f))) with h2 | h2
    · rcases Bool.eq_false_or_eq_true
          (stemOfRel (relPathOf cwd r f) == initStem) with h3 | h3
      · have hstem : stemOfRel (relPathOf cwd r f) = initStem := by
          simpa using h3
        rcases Bool.eq_false_or_eq_true
            (strippedSegments (relPathOf cwd r f) sr opts proc == [])
          with h4 | h4
        · have hseg : strippedSegments (relPathOf cwd r f) sr opts proc =
              [] := by simpa using h4
          have hL : toPythonModulePath cwd f r sr opts proc =
              workspaceFallback opts := by
            unfold toPythonModulePath
            simp [h1, h2, hstem, hseg]
          rw [hL]
          constructor
          · intro hwf
            exact Or.inr (Or.inr ⟨hstem, hseg, hwf⟩)
          · rintro (hd1 | hd2 | ⟨hs, hss, hwf⟩)
            · exact absurd hd1 hD1
            · rw [h2] at hd2
              cases hd2
            · exact hwf
        · have hseg : strippedSegments (relPathOf cwd r f) sr opts proc ≠
              [] := by simpa using h4
          have hL : toPythonModulePath cwd f r sr opts proc =
              some (joinSep dotC
                (strippedSegments (relPathOf cwd r f) sr opts proc)) := by
            unfold toPythonModulePath
            simp [h1, h2, hstem, hseg]
          rw [hL]
          refine iff_of_false (by simp) ?_
          rintro (hd1 | hd2 | ⟨hs, hss, hwf⟩)
          · exact hD1 hd1
          · rw [h2] at hd2
            cases hd2
          · exact hseg hss
      · have hstem : stemOfRel (relPathOf cwd r f) ≠ initStem := by
          simpa using h3
        have hL : toPythonModulePath cwd f r sr opts proc =
            some (joinSep dotC
              (strippedSegments (relPathOf cwd r f) sr opts proc ++
               [stemOfRel (relPathOf cwd r f)])) := by
          unfold toPythonModulePath
          simp [h1, h2, hstem]
        rw [hL]
        refine iff_of_false (by simp) ?_
        rintro (hd1 | hd2 | ⟨hs, hrest⟩)
        · exact hD1 hd1
        · rw [h2] at hd2
          cases hd2
        · exact hstem hs
    · have hL : toPythonModulePath cwd f r sr opts proc = none := by
        unfold toPythonModulePath
        simp [h1, h2]
      rw [hL]
      exact iff_of_true rfl (Or.inr (Or.inl h2))

/-- C6: a defined module path requires the lowercased extension to be
one of the two recognized source-file extensions; the comparison is
case-insensitive (`MOD.PY` is accepted) and any other extension gives no
result. -/
theorem toPythonModulePath_ext_gate :
    (∀ cwd f r sr opts proc m,
      toPythonModulePath cwd f r sr opts proc = some m →
      isPythonExt (extOfRel (relPathOf cwd r f)) = true) ∧
    toPythonModulePath ("/w".toList) ("/root/pkg/MOD.PY".toList)
        ("/root".toList) [] ⟨none, none⟩ ("linux".toList) =
      some ("pkg.MOD".toList) ∧
    toPythonModulePath ("/w".toList) ("/root/pkg/notes.txt".toList)
        ("/root".toList) [] ⟨none, none⟩ ("linux".toList) = none := by
  refine ⟨?_, by decide, by decide⟩
  intro cwd f r sr opts proc m h
  cases hext : isPythonExt (extOfRel (relPathOf cwd r f)) with
  | true => rfl
  | false =>
    unfold toPythonModulePath at h
    simp [hext] at h

/-- C6 witness: the uppercase-extension example satisfies the gate. -/
theorem toPythonModulePath_ext_gate_witness :
    isPythonExt (extOfRel (relPathOf ("/w".toList) ("/root".toList)
      ("/root/pkg/MOD.PY".toList))) = true :=
  toPythonModulePath_ext_gate.1 ("/w".toList) ("/root/pkg/MOD.PY".toList)
    ("/root".toList) [] ⟨none, none⟩ ("linux".toList)
    ("pkg.MOD".toList) (by decide)

/-- C2 (amended): for a call that passes the boundary and extension
checks and whose stem is `__init__`: when the stripped directory
segments are non-empty the result joins them with dots (the init file
contributes no segment); otherwise the result is the trimmed
`workspacePackageName` when supplied and valid as a bare identifier,
and no result otherwise. -/
theorem toPythonModulePath_init_branch (cwd f r sr : List Char)
    (opts : ToPythonModulePathOptions) (proc : List Char)
    (h1 : outsideRoot (relPathOf cwd r f) = false)
    (h2 : isPythonExt (extOfRel (relPathOf cwd r f)) = true)
    (h3 : stemOfRel (relPathOf cwd r f) = initStem) :
    toPythonModulePath cwd f r sr opts proc =
      (if strippedSegments (relPathOf cwd r f) sr opts proc = [] then
        (match opts.workspacePackageName with
         | some w =>
           if isValidPythonIdentifier (jsTrim w) = true then
             some (jsTrim w)
           else none
         | none => none)
       else
         some (joinSep dotC
           (strippedSegments (relPathOf cwd r f) sr opts proc))) := by
  have hwf : workspaceFallback opts =
      (match opts.workspacePackageName with
       | some w =>
         if isValidPythonIdentifier (jsTrim w) = true then some (jsTrim w)
         else none
       | none => none) := by
    cases hw : opts.workspacePackageName with
    | none => simp [workspaceFallback, hw]
    | some w =>
      simp only [workspaceFallback, hw]
      by_cases ht : jsTrim w = []
      · simp [ht, isValidPythonIdentifier]
      · simp [ht]
  unfold toPythonModulePath
  cases h4 : (strippedSegments (relPathOf cwd r f) sr opts proc == [])
      with
  | true =>
    have hseg : strippedSegments (relPathOf cwd r f) sr opts proc = [] :=
      by simpa using h4
    simp [h1, h2, h3, h4, hseg, hwf]
  | false =>
    have hseg : strippedSegments (relPathOf cwd r f) sr opts proc ≠ [] :=
      by simpa using h4
    simp [h1, h2, h3, h4, hseg]

/-- C2 witness: a package initializer inside a directory takes the
non-empty branch of the init-file trichotomy. -/
theorem toPythonModulePath_init_branch_witness :
    toPythonModulePath ("/w".toList) ("/root/mypkg/__init__.py".toList)
        ("/root".toList) [] ⟨none, none⟩ ("linux".toList) =
      (if strippedSegments (relPathOf ("/w".toList) ("/root".toList)
            ("/root/mypkg/__init__.py".toList)) [] ⟨none, none⟩
            ("linux".toList) = [] then
        (match (⟨none, none⟩ :
            ToPythonModulePathOptions).workspacePackageName with
         | some w =>
           if isValidPythonIdentifier (jsTrim w) = true then
             some (jsTrim w)
           else none
         | none => none)
       else
         some (joinSep dotC
           (strippedSegments (relPathOf ("/w".toList) ("/root".toList)
              ("/root/mypkg/__init__.py".toList)) [] ⟨none, none⟩
              ("linux".toList)))) :=
  toPythonModulePath_init_branch ("/w".toList)
    ("/root/mypkg/__init__.py".toList) ("/root".toList) []
    ⟨none, none⟩ ("linux".toList) (by decide) (by decide) (by decide)


/-! ### Supporting lemmas for the invariants and idempotence claims -/

theorem splitOnPred_ne_nil (p : Char → Bool) (l : List Char) :
    splitOnPred p l ≠ [] := by
  induction l with
  | nil => simp [splitOnPred]
  | cons c cs ih =>
    by_cases hp : p c <;> simp [splitOnPred, hp]

theorem mem_splitOnPred (p : Char → Bool) (l : List Char) (x : List Char)
    (hx : x ∈ splitOnPred p l) : ∀ c ∈ x, c ∈ l ∧ p c = false := by
  induction l generalizing x with
  | nil =>
    simp [splitOnPred] at hx
    subst hx
    intro c hc
    cases hc
  | cons a as ih =>
    obtain ⟨s, rest, hsr⟩ :=
      List.exists_cons_of_ne_nil (splitOnPred_ne_nil p as)
    by_cases hp : p a
    · rw [splitOnPred, if_pos hp] at hx
      rcases List.mem_cons.mp hx with rfl | hx'
      · intro c hc
        cases hc
      · intro c hc
        have hm := ih x hx' c hc
        exact ⟨List.mem_cons_of_mem a hm.1, hm.2⟩
    · rw [splitOnPred, if_neg hp, hsr] at hx
      simp only [List.headI, List.tail] at hx
      rcases List.mem_cons.mp hx with rfl | hx'
      · intro c hc
        rcases List.mem_cons.mp hc with rfl | hc'
        · exact ⟨List.mem_cons_self c as, by simpa using hp⟩
        · have hm := ih s (by rw [hsr]; exact List.mem_cons_self s rest)
            c hc'
          exact ⟨List.mem_cons_of_mem a hm.1, hm.2⟩
      · intro c hc
        have hm := ih x (by rw [hsr]; exact List.mem_cons_of_mem s hx')
          c hc
        exact ⟨List.mem_cons_of_mem a hm.1, hm.2⟩

theorem splitOnPred_free (p : Char → Bool) (l : List Char)
    (h : ∀ c ∈ l, p c = false) : splitOnPred p l = [l] := by
  induction l with
  | nil => simp [splitOnPred]
  | cons c cs ih =>
    have hc : p c = false := h c (List.mem_cons_self c cs)
    rw [splitOnPred, if_neg (by simp [hc]),
      ih (fun d hd => h d (List.mem_cons_of_mem c hd))]
    simp

theorem splitOnPred_append_sep (p : Char → Bool) (x : List Char)
    (hx : ∀ c ∈ x, p c = false) (s : Char) (hs : p s = true)
    (l : List Char) :
    splitOnPred p (x ++ s :: l) = x :: splitOnPred p l := by
  induction x with
  | nil =>
    rw [List.nil_append, splitOnPred, if_pos hs]
  | cons c cs ih =>
    have hc : p c = false := hx c (List.mem_cons_self c cs)
    have ih' := ih (fun d hd => hx d (List.mem_cons_of_mem c hd))
    rw [List.cons_append, splitOnPred, if_neg (by simp [hc]), ih']
    simp

theorem splitOnPred_joinSep (p : Char → Bool) (s : Char)
    (hs : p s = true) (N : List (List Char)) (hN : N ≠ [])
    (hfree : ∀ x ∈ N, ∀ c ∈ x, p c = false) :
    splitOnPred p (joinSep s N) = N := by
  induction N with
  | nil => exact absurd rfl hN
  | cons x xs ih =>
    rcases xs with _ | ⟨y, ys⟩
    · rw [show joinSep s [x] = x from rfl]
      exact splitOnPred_free p x (hfree x (List.mem_cons_self x []))
    · rw [joinSep, splitOnPred_append_sep p x
        (hfree x (List.mem_cons_self x (y :: ys))) s hs,
        ih (by simp) (fun z hz => hfree z (List.mem_cons_of_mem x hz))]

theorem mem_joinSep (s : Char) (N : List (List Char)) (c : Char)
    (hc : c ∈ joinSep s N) : c = s ∨ ∃ x ∈ N, c ∈ x := by
  induction N with
  | nil => cases hc
  | cons x xs ih =>
    rcases xs with _ | ⟨y, ys⟩
    · exact Or.inr ⟨x, List.mem_cons_self x [], by simpa [joinSep] using hc⟩
    · rw [joinSep] at hc
      rcases List.mem_append.mp hc with h | h
      · exact Or.inr ⟨x, List.mem_cons_self x (y :: ys), h⟩
      · rcases List.mem_cons.mp h with rfl | h'
        · exact Or.inl rfl
        · rcases ih h' with h'' | ⟨z, hz, hcz⟩
          · exact Or.inl h''
          · exact Or.inr ⟨z, List.mem_cons_of_mem x hz, hcz⟩

theorem joinSep_ne_nil (s : Char) (N : List (List Char)) (hN : N ≠ [])
    (h : ∀ x ∈ N, x ≠ []) : joinSep s N ≠ [] := by
  rcases N with _ | ⟨x, xs⟩
  · exact absurd rfl hN
  · rcases xs with _ | ⟨y, ys⟩
    · simpa [joinSep] using h x (List.mem_cons_self x [])
    · rw [joinSep]
      intro hcon
      rcases List.append_eq_nil.mp hcon with ⟨h1, h2⟩
      cases h2

theorem head?_joinSep (s : Char) (x : List Char) (xs : List (List Char))
    (hx : x ≠ []) : (joinSep s (x :: xs)).head? = x.head? := by
  rcases xs with _ | ⟨y, ys⟩
  · rfl
  · rw [joinSep]
    rcases x with _ | ⟨c, cs⟩
    · exact absurd rfl hx
    · rfl

theorem getLast?_cons_ne_nil {α : Type} (c : α) (z : List α)
    (h : z ≠ []) : (c :: z).getLast? = z.getLast? := by
  rcases z with _ | ⟨d, ds⟩
  · exact absurd rfl h
  · rfl

theorem getLast?_append_cons {α : Type} (l : List α) (c : α)
    (z : List α) : (l ++ c :: z).getLast? = (c :: z).getLast? := by
  induction l with
  | nil => rfl
  | cons a as ih =>
    rw [List.cons_append, getLast?_cons_ne_nil a _ (by simp), ih]

theorem getLast?_joinSep (s : Char) (N : List (List Char))
    (h : ∀ x ∈ N, x ≠ []) (x' : List Char) (hN : N.getLast? = some x') :
    (joinSep s N).getLast? = x'.getLast? := by
  induction N with
  | nil => cases hN
  | cons x xs ih =>
    rcases xs with _ | ⟨y, ys⟩
    · simp at hN
      subst hN
      rfl
    · have hlast : (y :: ys).getLast? = some x' := by
        rw [← hN]
        exact (getLast?_cons_ne_nil x (y :: ys) (by simp)).symm
      have hrec := ih (fun z hz => h z (List.mem_cons_of_mem x hz)) hlast
      rw [joinSep, getLast?_append_cons, getLast?_cons_ne_nil s _
        (joinSep_ne_nil s (y :: ys) (by simp)
          (fun z hz => h z (List.mem_cons_of_mem x hz))), hrec]

theorem shapeOk_nil : ShapeOk [] := ⟨0, [], rfl, by intro x hx; cases hx⟩

theorem mem_of_shapeOk {l : List (List Char)} (h : ShapeOk l) :
    ∀ x ∈ l, x = dotDotSeg ∨ isGoodSeg x = true := by
  obtain ⟨k, regs, rfl, hregs⟩ := h
  intro x hx
  rcases List.mem_append.mp hx with h1 | h2
  · exact Or.inl (List.eq_of_mem_replicate h1)
  · exact Or.inr (hregs x h2)

theorem shapeOk_step (a : Bool) (acc : List (List Char))
    (seg : List Char) (h : ShapeOk acc) :
    ShapeOk (normSegsStep a acc seg) := by
  obtain ⟨k, regs, rfl, hregs⟩ := h
  unfold normSegsStep
  by_cases h1 : (seg == [] || seg == [dotC]) = true
  · rw [if_pos h1]
    exact ⟨k, regs, rfl, hregs⟩
  · rw [if_neg h1]
    by_cases h2 : (seg == dotDotSeg) = true
    · rw [if_pos h2]
      by_cases h3 : (!(List.replicate k dotDotSeg ++ regs == []) &&
          !((List.replicate k dotDotSeg ++ regs).getLast? ==
            some dotDotSeg)) = true
      · rw [if_pos h3]
        have hregs_ne : regs ≠ [] := by
          intro hr
          subst hr
          rcases Nat.eq_zero_or_pos k with hk | hk
          · subst hk
            simp at h3
          · obtain ⟨k', rfl⟩ := Nat.exists_eq_succ_of_ne_zero
              (Nat.pos_iff_ne_zero.mp hk)
            rw [List.replicate_succ' k' dotDotSeg] at h3
            simp at h3
        obtain ⟨r', rs', hrr⟩ := List.exists_cons_of_ne_nil hregs_ne
        refine ⟨k, regs.dropLast, ?_, ?_⟩
        · rw [List.dropLast_append_of_ne_nil _ hregs_ne]
        · intro x hx
          exact hregs x ((List.dropLast_sublist regs).mem hx)
      · rw [if_neg h3]
        by_cases h4 : a = true
        · rw [if_pos h4]
          have hregs_nil : regs = [] := by
            rcases regs with _ | ⟨r, rs⟩
            · rfl
            · exfalso
              apply h3
              simp only [Bool.and_eq_true, Bool.not_eq_true']
              constructor
              · simp
              · rw [getLast?_append_cons]
                have hr := hregs ((r :: rs).getLast (by simp))
                  (List.getLast_mem (by simp))
                rw [List.getLast?_eq_getLast (r :: rs) (by simp)]
                simp only [isGoodSeg, Bool.and_eq_true, Bool.not_eq_true',
                  beq_eq_false_iff_ne] at hr
                simpa using hr.2
          subst hregs_nil
          refine ⟨k + 1, [], ?_, by intro x hx; cases hx⟩
          rw [List.append_nil, List.append_nil,
            List.replicate_succ' k dotDotSeg]
        · rw [if_neg h4]
          exact ⟨k, regs, rfl, hregs⟩
    · rw [if_neg h2]
      refine ⟨k, regs ++ [seg], List.append_assoc _ _ _, ?_⟩
      intro x hx
      rcases List.mem_append.mp hx with hx1 | hx2
      · exact hregs x hx1
      · rw [List.mem_singleton.mp hx2]
        simp only [Bool.or_eq_true] at h1
        simp only [isGoodSeg, Bool.and_eq_true, Bool.not_eq_true']
        refine ⟨⟨?_, ?_⟩, ?_⟩
        · simpa using fun hc => h1 (Or.inl hc)
        · simpa using fun hc => h1 (Or.inr hc)
        · simpa using h2

theorem shapeOk_foldl (a : Bool) (l : List (List Char))
    (acc : List (List Char)) (h : ShapeOk acc) :
    ShapeOk (l.foldl (normSegsStep a) acc) := by
  induction l generalizing acc with
  | nil => exact h
  | cons s l' ih => exact ih _ (shapeOk_step a acc s h)

theorem shapeOk_normSegs (a : Bool) (l : List (List Char)) :
    ShapeOk (normSegs a l) :=
  shapeOk_foldl a l [] shapeOk_nil

theorem mem_normSegs_step (a : Bool) (acc : List (List Char))
    (seg : List Char) (x : List Char) (hx : x ∈ normSegsStep a acc seg) :
    x ∈ acc ∨ x = seg := by
  unfold normSegsStep at hx
  by_cases h1 : (seg == [] || seg == [dotC]) = true
  · rw [if_pos h1] at hx
    exact Or.inl hx
  · rw [if_neg h1] at hx
    by_cases h2 : (seg == dotDotSeg) = true
    · rw [if_pos h2] at hx
      by_cases h3 : (!(acc == []) && !(acc.getLast? == some dotDotSeg)) =
          true
      · rw [if_pos h3] at hx
        exact Or.inl ((List.dropLast_sublist acc).mem hx)
      · rw [if_neg h3] at hx
        by_cases h4 : a = true
        · rw [if_pos h4] at hx
          rcases List.mem_append.mp hx with hx1 | hx2
          · exact Or.inl hx1
          · refine Or.inr ?_
            rw [List.mem_singleton.mp hx2, beq_iff_eq.mp h2]
        · rw [if_neg h4] at hx
          exact Or.inl hx
    · rw [if_neg h2] at hx
      rcases List.mem_append.mp hx with hx1 | hx2
      · exact Or.inl hx1
      · exact Or.inr (List.mem_singleton.mp hx2)

theorem mem_normSegs_foldl (a : Bool) (l acc : List (List Char))
    (x : List Char) (hx : x ∈ l.foldl (normSegsStep a) acc) :
    x ∈ acc ∨ x ∈ l := by
  induction l generalizing acc with
  | nil => exact Or.inl hx
  | cons s l' ih =>
    rcases ih (normSegsStep a acc s) hx with h | h
    · rcases mem_normSegs_step a acc s x h with h' | h'
      · exact Or.inl h'
      · exact Or.inr (by rw [h']; exact List.mem_cons_self s l')
    · exact Or.inr (List.mem_cons_of_mem s h)

theorem mem_normSegs (a : Bool) (l : List (List Char)) (x : List Char)
    (hx : x ∈ normSegs a l) : x ∈ l := by
  rcases mem_normSegs_foldl a l [] x hx with h | h
  · cases h
  · exact h

theorem foldl_good_segs (regs acc : List (List Char))
    (h : ∀ x ∈ regs, isGoodSeg x = true) :
    regs.foldl (normSegsStep true) acc = acc ++ regs := by
  induction regs generalizing acc with
  | nil => simp
  | cons r rs ih =>
    have hr := h r (List.mem_cons_self r rs)
    simp only [isGoodSeg, Bool.and_eq_true, Bool.not_eq_true',
      beq_eq_false_iff_ne] at hr
    have hstep : normSegsStep true acc r = acc ++ [r] := by
      unfold normSegsStep
      rw [if_neg (by simp [hr.1.1, hr.1.2]), if_neg (by simp [hr.2])]
    rw [List.foldl_cons, hstep,
      ih (acc ++ [r]) (fun x hx => h x (List.mem_cons_of_mem r hx))]
    simp

theorem foldl_dotdots (k : Nat) (i : Nat) :
    (List.replicate k dotDotSeg).foldl (normSegsStep true)
      (List.replicate i dotDotSeg) = List.replicate (i + k) dotDotSeg := by
  induction k generalizing i with
  | zero => simp
  | succ k' ih =>
    rw [List.replicate_succ, List.foldl_cons]
    have hstep : normSegsStep true (List.replicate i dotDotSeg) dotDotSeg =
        List.replicate (i + 1) dotDotSeg := by
      unfold normSegsStep
      rw [if_neg (by simp [dotDotSeg, dotC]), if_pos (by simp)]
      rcases i with _ | i'
      · simp
      · have hlast : (List.replicate (i' + 1) dotDotSeg).getLast? =
            some dotDotSeg := by
          rw [List.replicate_succ' i' dotDotSeg]
          exact List.getLast?_concat _
        rw [if_neg (by simp [hlast]), if_pos rfl,
          List.replicate_succ' (i' + 1) dotDotSeg]
    rw [hstep, ih (i + 1)]
    have harith : i + 1 + k' = i + (k' + 1) := by omega
    rw [harith]

theorem normSegs_of_shapeOk (l : List (List Char)) (h : ShapeOk l) :
    normSegs true l = l := by
  obtain ⟨k, regs, rfl, hregs⟩ := h
  unfold normSegs
  rw [List.foldl_append]
  have h1 : (List.replicate k dotDotSeg).foldl (normSegsStep true) [] =
      List.replicate k dotDotSeg := by
    have := foldl_dotdots k 0
    simpa using this
  rw [h1, foldl_good_segs regs (List.replicate k dotDotSeg) hregs]

theorem ne_nil_of_shapeOk {l : List (List Char)} (h : ShapeOk l) :
    ∀ x ∈ l, x ≠ [] := by
  intro x hx
  rcases mem_of_shapeOk h x hx with h1 | h2
  · rw [h1]
    simp [dotDotSeg]
  · simp only [isGoodSeg, Bool.and_eq_true, Bool.not_eq_true',
      beq_eq_false_iff_ne] at h2
    exact h2.1.1

theorem mem_dropWhile_imp {p : Char → Bool} {l : List Char} {c : Char}
    (h : c ∈ l.dropWhile p) : c ∈ l :=
  (List.dropWhile_sublist p).mem h

theorem mem_takeWhile_imp' {p : Char → Bool} {l : List Char} {c : Char}
    (h : c ∈ l.takeWhile p) : c ∈ l :=
  (List.takeWhile_sublist p).mem h

theorem mem_posixBasename (p : List Char) (c : Char)
    (hc : c ∈ posixBasename p) : c ∈ p ∧ c ≠ slash := by
  unfold posixBasename at hc
  rw [List.mem_reverse] at hc
  constructor
  · have h1 := mem_takeWhile_imp' hc
    have h2 := mem_dropWhile_imp h1
    exact List.mem_reverse.mp h2
  · have h3 := List.mem_takeWhile_imp hc
    simpa using h3

theorem mem_posixDirname (p : List Char) (c : Char)
    (hc : c ∈ posixDirname p) : c = dotC ∨ c = slash ∨ c ∈ p := by
  unfold posixDirname at hc
  by_cases h0 : (p == []) = true
  · rw [if_pos h0] at hc
    rcases List.mem_singleton.mp hc with rfl
    exact Or.inl rfl
  · rw [if_neg h0] at hc
    by_cases h1 : ((p.reverse.dropWhile (· == slash)).dropWhile
        (· != slash)).length ≤ 1
    · rw [if_pos h1] at hc
      by_cases h2 : (p.head? == some slash) = true
      · rw [if_pos h2] at hc
        rcases List.mem_singleton.mp hc with rfl
        exact Or.inr (Or.inl rfl)
      · rw [if_neg h2] at hc
        rcases List.mem_singleton.mp hc with rfl
        exact Or.inl rfl
    · rw [if_neg h1] at hc
      by_cases h3 : ((p.head? == some slash) &&
          (((p.reverse.dropWhile (· == slash)).dropWhile
            (· != slash)).length == 2)) = true
      · rw [if_pos h3] at hc
        rcases List.mem_cons.mp hc with rfl | hc'
        · exact Or.inr (Or.inl rfl)
        · rcases List.mem_singleton.mp hc' with rfl
          exact Or.inr (Or.inl rfl)
      · rw [if_neg h3] at hc
        rw [List.mem_reverse] at hc
        have h4 := (List.tail_sublist _).mem hc
        have h5 := mem_dropWhile_imp h4
        have h6 := mem_dropWhile_imp h5
        exact Or.inr (Or.inr (List.mem_reverse.mp h6))

theorem mem_splitPath (input : List Char) (x : List Char)
    (hx : x ∈ splitPath input) :
    x ≠ [] ∧ ∀ c ∈ x, c ∈ input ∧ isSepChar c = false := by
  unfold splitPath at hx
  by_cases h0 : (input == [] || input == [dotC]) = true
  · rw [if_pos h0] at hx
    cases hx
  · rw [if_neg h0] at hx
    rcases List.mem_filter.mp hx with ⟨hmem, hne⟩
    refine ⟨by simpa using hne, ?_⟩
    exact mem_splitOnPred isSepChar input x hmem

theorem mem_strippedSegments (rel sr : List Char)
    (opts : ToPythonModulePathOptions) (proc : List Char)
    (x : List Char) (hx : x ∈ strippedSegments rel sr opts proc) :
    x ∈ splitPath (posixDirname rel) := by
  unfold strippedSegments at hx
  by_cases h0 : (sr == []) = true
  · rw [if_pos h0] at hx
    exact hx
  · rw [if_neg h0] at hx
    by_cases h1 : hasPrefixSegs (splitPath (posixDirname rel))
        (splitPath sr)
        (!(opts.platform.getD proc == win32S)) = true
    · rw [if_pos h1] at hx
      exact (List.drop_sublist _ _).mem hx
    · rw [if_neg h1] at hx
      exact hx

theorem mem_resolveSegs (cwd p : List Char) (x : List Char)
    (hx : x ∈ resolveSegs cwd p) :
    ∀ c ∈ x, (c ∈ cwd ∨ c ∈ p) ∧ c ≠ slash := by
  unfold resolveSegs at hx
  have hmem := mem_normSegs false _ x hx
  intro c hc
  have h1 := mem_splitOnPred _ _ x hmem c hc
  constructor
  · by_cases habs : (posixIsAbsolute p) = true
    · rw [if_pos habs] at h1
      exact Or.inr h1.1
    · rw [if_neg habs] at h1
      rcases List.mem_append.mp h1.1 with h2 | h2
      · exact Or.inl h2
      · rcases List.mem_cons.mp h2 with rfl | h3
        · exact absurd h1.2 (by simp)
        · exact Or.inr h3
  · intro hcs
    subst hcs
    simpa using h1.2

theorem mem_posixRelative (cwd a b : List Char) (c : Char)
    (hc : c ∈ posixRelative cwd a b) :
    c = dotC ∨ c = slash ∨ c ∈ cwd ∨ c ∈ b := by
  unfold posixRelative at hc
  by_cases h0 : (a == b) = true
  · rw [if_pos h0] at hc
    cases hc
  · rw [if_neg h0] at hc
    by_cases h1 : (resolveSegs cwd a == resolveSegs cwd b) = true
    · rw [if_pos h1] at hc
      cases hc
    · rw [if_neg h1] at hc
      rcases mem_joinSep slash _ c hc with rfl | ⟨x, hx, hcx⟩
      · exact Or.inr (Or.inl rfl)
      · rcases List.mem_append.mp hx with h2 | h2
        · rw [List.eq_of_mem_replicate h2] at hcx
          rcases List.mem_cons.mp hcx with rfl | hcx'
          · exact Or.inl rfl
          · rcases List.mem_singleton.mp hcx' with rfl
            exact Or.inl rfl
        · have h3 := (List.drop_sublist _ _).mem h2
          have h4 := mem_resolveSegs cwd b x h3 c hcx
          rcases h4.1 with h5 | h5
          · exact Or.inr (Or.inr (Or.inl h5))
          · exact Or.inr (Or.inr (Or.inr h5))

theorem dropWhile_all_false {p : Char → Bool} {l : List Char}
    (h : ∀ c ∈ l, p c = false) : l.dropWhile p = l := by
  rcases l with _ | ⟨c, cs⟩
  · rfl
  · rw [List.dropWhile_cons_of_neg
      (by simp [h c (List.mem_cons_self c cs)])]

theorem takeWhile_all_true {p : Char → Bool} {l : List Char}
    (h : ∀ c ∈ l, p c = true) : l.takeWhile p = l := by
  induction l with
  | nil => rfl
  | cons c cs ih =>
    rw [List.takeWhile_cons_of_pos (h c (List.mem_cons_self c cs)),
      ih (fun d hd => h d (List.mem_cons_of_mem c hd))]

theorem component_of_slashfree (b : List Char)
    (h : ∀ c ∈ b, c ≠ slash) :
    ((b.reverse.dropWhile (· == slash)).takeWhile (· != slash)).reverse =
      b := by
  have h1 : b.reverse.dropWhile (· == slash) = b.reverse :=
    dropWhile_all_false
      (fun c hc => by simpa using h c (List.mem_reverse.mp hc))
  have h2 : b.reverse.takeWhile (· != slash) = b.reverse :=
    takeWhile_all_true
      (fun c hc => by simpa using h c (List.mem_reverse.mp hc))
  rw [h1, h2, List.reverse_reverse]

theorem extnameSuffix_drop (b : List Char) (h : extnameSuffix b ≠ []) :
    ∃ d, 1 ≤ d ∧ d < b.length ∧ extnameSuffix b = b.drop d := by
  unfold extnameSuffix at h ⊢
  by_cases h1 : ((b.reverse.takeWhile (· != dotC)).length == b.length) =
      true
  · rw [if_pos h1] at h
    exact absurd rfl h
  · rw [if_neg h1] at h ⊢
    by_cases h2 : ((b.length - (b.reverse.takeWhile (· != dotC)).length -
        1 == 0) || (b == dotDotSeg)) = true
    · rw [if_pos h2] at h
      exact absurd rfl h
    · rw [if_neg h2] at h ⊢
      have haLen : (b.reverse.takeWhile (· != dotC)).length ≤ b.length := by
        have := (List.takeWhile_sublist (l := b.reverse)
          (· != dotC)).length_le
        simpa using this
      have hne1 : (b.reverse.takeWhile (· != dotC)).length ≠ b.length := by
        simpa using h1
      have hne2 : b.length - (b.reverse.takeWhile (· != dotC)).length -
          1 ≠ 0 := by
        intro h0
        exact h2 (by simp [h0])
      exact ⟨b.length - (b.reverse.takeWhile (· != dotC)).length - 1,
        by omega, by omega, rfl⟩

theorem stemOfRel_spec (rel : List Char)
    (hext : isPythonExt (extOfRel rel) = true) :
    stemOfRel rel ≠ [] ∧ ∀ c ∈ stemOfRel rel, c ∈ posixBasename rel := by
  have hbfree : ∀ c ∈ posixBasename rel, c ≠ slash :=
    fun c hc => (mem_posixBasename rel c hc).2
  have hcomp : posixExtname (posixBasename rel) =
      extnameSuffix (posixBasename rel) := by
    unfold posixExtname
    rw [component_of_slashfree (posixBasename rel) hbfree]
  have hne : extOfRel rel ≠ [] := by
    intro h0
    rw [h0] at hext
    exact absurd hext (by decide)
  have hsufne : extnameSuffix (posixBasename rel) ≠ [] := by
    intro h0
    apply hne
    unfold extOfRel
    rw [hcomp, h0]
    rfl
  obtain ⟨d, hd1, hd2, hdrop⟩ :=
    extnameSuffix_drop (posixBasename rel) hsufne
  have hlen : (extOfRel rel).length = (posixBasename rel).length - d := by
    unfold extOfRel lowerSeg
    rw [hcomp, hdrop, List.length_map, List.length_drop]
  have hstem : stemOfRel rel = (posixBasename rel).take d := by
    have harith : (posixBasename rel).length -
        ((posixBasename rel).length - d) = d := by omega
    unfold stemOfRel
    rw [if_neg (by simpa using hne), hlen, harith]
  constructor
  · rw [hstem]
    intro h0
    have hlen2 : ((posixBasename rel).take d).length = d := by
      rw [List.length_take]
      omega
    rw [h0] at hlen2
    simp at hlen2
    omega
  · intro c hc
    rw [hstem] at hc
    exact (List.take_sublist d (posixBasename rel)).mem hc

theorem valid_ident_chars (l : List Char)
    (h : isValidPythonIdentifier l = true) :
    l ≠ [] ∧ ∀ c ∈ l, isIdentChar c = true := by
  rcases l with _ | ⟨c, cs⟩
  · exact absurd h (by decide)
  · rw [isValidPythonIdentifier] at h
    have h' : isIdentStart c = true ∧ cs.all isIdentChar = true := by
      simpa using h
    refine ⟨by simp, ?_⟩
    intro d hd
    rcases List.mem_cons.mp hd with rfl | hd'
    · simp [isIdentChar, h'.1]
    · exact List.all_eq_true.mp h'.2 d hd'

theorem identChar_not_sep (c : Char) (h : isIdentChar c = true) :
    c ≠ slash ∧ c ≠ bslash ∧ c ≠ dotC := by
  refine ⟨?_, ?_, ?_⟩ <;> intro hc <;> rw [hc] at h <;>
    exact absurd h (by decide)

theorem strippedSegments_facts (rel sr : List Char)
    (opts : ToPythonModulePathOptions) (proc : List Char) :
    ∀ x ∈ strippedSegments rel sr opts proc,
      x ≠ [] ∧ ∀ c ∈ x, c ≠ slash ∧ c ≠ bslash := by
  intro x hx
  have h1 := mem_strippedSegments rel sr opts proc x hx
  have h2 := mem_splitPath _ x h1
  refine ⟨h2.1, ?_⟩
  intro c hc
  have h3 := (h2.2 c hc).2
  unfold isSepChar at h3
  constructor
  · intro hcc
    rw [hcc] at h3
    simp at h3
  · intro hcc
    rw [hcc] at h3
    simp at h3

theorem basename_char_not_bslash (cwd r f : List Char)
    (hcwd : bslash ∉ cwd) (hf : bslash ∉ f) (c : Char)
    (hc : c ∈ posixBasename (relPathOf cwd r f)) : c ≠ bslash := by
  have h1 := mem_posixBasename _ c hc
  intro hcc
  subst hcc
  rcases mem_posixRelative cwd r f bslash h1.1 with h | h | h | h
  · exact absurd h (by decide)
  · exact absurd h (by decide)
  · exact hcwd h
  · exact hf h

/-- C4 (amended): a defined module path is non-empty, contains no `/`,
contains no `\` provided neither the working directory nor the file path
contains one, and is the dot-join of the stripped root-relative
directory segments (with the stem appended for a non-initializer file),
except in the workspace-name fallback, where it is the trimmed
`workspacePackageName`. -/
theorem toPythonModulePath_result_invariants (cwd f r sr : List Char)
    (opts : ToPythonModulePathOptions) (proc : List Char) (m : List Char)
    (h : toPythonModulePath cwd f r sr opts proc = some m) :
    m ≠ [] ∧ slash ∉ m ∧ ((bslash ∉ cwd ∧ bslash ∉ f) → bslash ∉ m) ∧
    (m = joinSep dotC (finalSegsOf cwd f r sr opts proc) ∨
     ∃ w, opts.workspacePackageName = some w ∧ m = jsTrim w) := by
  rcases Bool.eq_false_or_eq_true (outsideRoot (relPathOf cwd r f)) with
    h1 | h1
  · exfalso
    have hL : toPythonModulePath cwd f r sr opts proc = none := by
      unfold toPythonModulePath
      simp [h1]
    rw [hL] at h
    cases h
  · rcases Bool.eq_false_or_eq_true
        (isPythonExt (extOfRel (relPathOf cwd r f))) with h2 | h2
    · have hsegf := strippedSegments_facts (relPathOf cwd r f) sr opts
        proc
      rcases Bool.eq_false_or_eq_true
          (stemOfRel (relPathOf cwd r f) == initStem) with h3 | h3
      · -- package initializer
        have hstem : stemOfRel (relPathOf cwd r f) = initStem := by
          simpa using h3
        rcases Bool.eq_false_or_eq_true
            (strippedSegments (relPathOf cwd r f) sr opts proc == [])
          with h4 | h4
        · -- root-level initializer: workspace-name fallback
          have hseg : strippedSegments (relPathOf cwd r f) sr opts proc =
              [] := by simpa using h4
          have hL : toPythonModulePath cwd f r sr opts proc =
              workspaceFallback opts := by
            unfold toPythonModulePath
            simp [h1, h2, hstem, hseg]
          rw [hL] at h
          unfold workspaceFallback at h
          rcases hw : opts.workspacePackageName with _ | w
          · rw [hw] at h
            simp at h
          · rw [hw] at h
            dsimp only at h
            by_cases hv : (!(jsTrim w == []) && isValidPythonIdentifier
                (jsTrim w)) = true
            · rw [if_pos hv] at h
              have hm := (Option.some.injEq _ _).mp h
              have hv' : isValidPythonIdentifier (jsTrim w) = true := by
                rcases Bool.eq_false_or_eq_true
                    (isValidPythonIdentifier (jsTrim w)) with hvv | hvv
                · exact hvv
                · rw [hvv] at hv
                  simp at hv
              have hchars := valid_ident_chars (jsTrim w) hv'
              refine ⟨?_, ?_, ?_, Or.inr ⟨w, rfl, hm.symm⟩⟩
              · rw [← hm]
                exact hchars.1
              · intro hsl
                rw [← hm] at hsl
                exact (identChar_not_sep slash
                  (hchars.2 slash hsl)).1 rfl
              · intro hbs hmem
                rw [← hm] at hmem
                exact (identChar_not_sep bslash
                  (hchars.2 bslash hmem)).2.1 rfl
            · rw [if_neg hv] at h
              cases h
        · -- initializer inside a directory
          have hseg : strippedSegments (relPathOf cwd r f) sr opts proc ≠
              [] := by simpa using h4
          have hL : toPythonModulePath cwd f r sr opts proc =
              some (joinSep dotC
                (strippedSegments (relPathOf cwd r f) sr opts proc)) := by
            unfold toPythonModulePath
            simp [h1, h2, hstem, hseg]
          rw [hL] at h
          have hm := (Option.some.injEq _ _).mp h
          refine ⟨?_, ?_, ?_, ?_⟩
          · rw [← hm]
            exact joinSep_ne_nil dotC _ hseg
              (fun x hx => (hsegf x hx).1)
          · intro hsl
            rw [← hm] at hsl
            rcases mem_joinSep dotC _ slash hsl with hd | ⟨x, hx, hcx⟩
            · exact absurd hd.symm (by decide)
            · exact ((hsegf x hx).2 slash hcx).1 rfl
          · intro hbs hmem
            rw [← hm] at hmem
            rcases mem_joinSep dotC _ bslash hmem with hd | ⟨x, hx, hcx⟩
            · exact absurd hd.symm (by decide)
            · exact ((hsegf x hx).2 bslash hcx).2 rfl
          · refine Or.inl ?_
            rw [← hm]
            unfold finalSegsOf
            rw [if_pos h3]
      · -- ordinary module file: stem appended
        have hstem : stemOfRel (relPathOf cwd r f) ≠ initStem := by
          simpa using h3
        have hL : toPythonModulePath cwd f r sr opts proc =
            some (joinSep dotC
              (strippedSegments (relPathOf cwd r f) sr opts proc ++
               [stemOfRel (relPathOf cwd r f)])) := by
          unfold toPythonModulePath
          simp [h1, h2, hstem]
        rw [hL] at h
        have hm := (Option.some.injEq _ _).mp h
        have hspec := stemOfRel_spec (relPathOf cwd r f) h2
        have hfacts : ∀ x ∈ strippedSegments (relPathOf cwd r f) sr opts
            proc ++ [stemOfRel (relPathOf cwd r f)],
            x ≠ [] ∧ ∀ c ∈ x, c ≠ slash ∧
              ((bslash ∉ cwd ∧ bslash ∉ f) → c ≠ bslash) := by
          intro x hx
          rcases List.mem_append.mp hx with hx1 | hx2
          · have hfx := hsegf x hx1
            exact ⟨hfx.1, fun c hc =>
              ⟨(hfx.2 c hc).1, fun _ => (hfx.2 c hc).2⟩⟩
          · rw [List.mem_singleton.mp hx2]
            refine ⟨hspec.1, ?_⟩
            intro c hc
            have hb := hspec.2 c hc
            refine ⟨(mem_posixBasename _ c hb).2, ?_⟩
            intro hbs
            exact basename_char_not_bslash cwd r f hbs.1 hbs.2 c hb
        refine ⟨?_, ?_, ?_, ?_⟩
        · rw [← hm]
          exact joinSep_ne_nil dotC _ (by simp)
            (fun x hx => (hfacts x hx).1)
        · intro hsl
          rw [← hm] at hsl
          rcases mem_joinSep dotC _ slash hsl with hd | ⟨x, hx, hcx⟩
          · exact absurd hd.symm (by decide)
          · exact ((hfacts x hx).2 slash hcx).1 rfl
        · intro hbs hmem
          rw [← hm] at hmem
          rcases mem_joinSep dotC _ bslash hmem with hd | ⟨x, hx, hcx⟩
          · exact absurd hd.symm (by decide)
          · exact ((hfacts x hx).2 bslash hcx).2 hbs rfl
        · refine Or.inl ?_
          rw [← hm]
          unfold finalSegsOf
          rw [if_neg (by simp [h3])]
    · exfalso
      have hL : toPythonModulePath cwd f r sr opts proc = none := by
        unfold toPythonModulePath
        simp [h1, h2]
      rw [hL] at h
      cases h

theorem jsTrim_all_false (l : List Char)
    (h : ∀ c ∈ l, jsIsSpace c = false) : jsTrim l = l := by
  unfold jsTrim
  rw [dropWhile_all_false h,
    dropWhile_all_false (fun c hc => h c (List.mem_reverse.mp hc)),
    List.reverse_reverse]

theorem dropWhile_of_head {p : Char → Bool} {l : List Char} {c : Char}
    (hc : l.head? = some c) (hp : p c = false) : l.dropWhile p = l := by
  rcases l with _ | ⟨a, as⟩
  · cases hc
  · have ha : a = c := by
      injection hc
    subst ha
    rw [List.dropWhile_cons_of_neg (by simp [hp])]

theorem stripEdgeSeps_eq_self (l : List Char) (c1 c2 : Char)
    (h1 : l.head? = some c1) (hp1 : isSepChar c1 = false)
    (h2 : l.getLast? = some c2) (hp2 : isSepChar c2 = false) :
    stripEdgeSeps l = l := by
  unfold stripEdgeSeps
  have hrev : l.reverse.dropWhile isSepChar = l.reverse :=
    dropWhile_of_head (by rw [List.head?_reverse]; exact h2) hp2
  rw [dropWhile_of_head h1 hp1, hrev, List.reverse_reverse]

theorem stripEdgeSeps_cons_sep (c : Char) (hc : isSepChar c = true)
    (l : List Char) : stripEdgeSeps (c :: l) = stripEdgeSeps l := by
  unfold stripEdgeSeps
  rw [List.dropWhile_cons_of_pos hc]

theorem stripEdgeSeps_append_sep (l : List Char) (c1 : Char)
    (h1 : l.head? = some c1) (hp1 : isSepChar c1 = false) (s : Char)
    (hs : isSepChar s = true) :
    stripEdgeSeps (l ++ [s]) = stripEdgeSeps l := by
  rcases l with _ | ⟨a, as⟩
  · cases h1
  · have ha : a = c1 := Option.some.inj h1
    rw [← ha] at hp1
    unfold stripEdgeSeps
    rw [dropWhile_of_head (l := a :: as ++ [s]) rfl hp1,
      dropWhile_of_head (l := a :: as) rfl hp1]
    have hrev : (a :: as ++ [s]).reverse = s :: (a :: as).reverse := by
      simp
    rw [hrev, List.dropWhile_cons_of_pos hs]

/-- C7 (amended): `normalizeSourceRoot` is idempotent on every input
containing no whitespace and no backslash characters (in general a
trailing or leading separator can protect a whitespace-edged segment,
and stripping a backslash run can expose a `.` or `..` segment, so a
second application may differ). -/
theorem normalizeSourceRoot_idempotent_clean (s : List Char)
    (hbs : bslash ∉ s) (hws : ∀ c ∈ s, jsIsSpace c = false) :
    normalizeSourceRoot (normalizeSourceRoot s) =
      normalizeSourceRoot s := by
  by_cases hnil : s = []
  · subst hnil
    rfl
  have hnsr : normalizeSourceRoot s = stripEdgeSeps (pathNormalize s) := by
    unfold normalizeSourceRoot
    rw [jsTrim_all_false s hws, if_neg (by simpa using hnil)]
  rcases hN : (normSegs (!posixIsAbsolute s) (posixSplit s)) with
    _ | ⟨x, xs⟩
  · have hPN : pathNormalize s =
        (if posixIsAbsolute s then [slash]
         else if s.getLast? == some slash then [dotC, slash]
         else [dotC]) := by
      unfold pathNormalize
      rw [if_neg (by simpa using hnil), if_pos (by rw [hN]; rfl)]
    rw [hnsr, hPN]
    by_cases hA : posixIsAbsolute s = true
    · rw [if_pos hA]
      decide
    · rw [if_neg hA]
      by_cases hB : (s.getLast? == some slash) = true
      · rw [if_pos hB]
        decide
      · rw [if_neg hB]
        decide
  · have hshape : ShapeOk (x :: xs) := by
      rw [← hN]
      exact shapeOk_normSegs _ _
    have hneN : ∀ y ∈ (x :: xs), y ≠ [] := ne_nil_of_shapeOk hshape
    have hmemN : ∀ y ∈ (x :: xs), ∀ c ∈ y, c ∈ s ∧ c ≠ slash := by
      intro y hy c hc
      have hy' : y ∈ normSegs (!posixIsAbsolute s) (posixSplit s) := by
        rw [hN]
        exact hy
      have h1 := mem_splitOnPred _ s y (mem_normSegs _ _ y hy') c hc
      exact ⟨h1.1, by simpa using h1.2⟩
    have hsegchar : ∀ y ∈ (x :: xs), ∀ c ∈ y,
        isSepChar c = false ∧ jsIsSpace c = false := by
      intro y hy c hc
      have h1 := hmemN y hy c hc
      have hcb : c ≠ bslash := by
        intro hcc
        subst hcc
        exact hbs h1.1
      refine ⟨?_, hws c h1.1⟩
      unfold isSepChar
      simp [h1.2, hcb]
    obtain ⟨c1, x', rfl⟩ :=
      List.exists_cons_of_ne_nil (hneN x (List.mem_cons_self x xs))
    have hc1 := hsegchar (c1 :: x') (List.mem_cons_self _ xs) c1
      (List.mem_cons_self c1 x')
    have hc1slash : c1 ≠ slash :=
      (hmemN (c1 :: x') (List.mem_cons_self _ xs) c1
        (List.mem_cons_self c1 x')).2
    have hcore_ne : joinSep slash ((c1 :: x') :: xs) ≠ [] :=
      joinSep_ne_nil slash ((c1 :: x') :: xs) (by simp) hneN
    have hhead : (joinSep slash ((c1 :: x') :: xs)).head? = some c1 := by
      rw [head?_joinSep slash (c1 :: x') xs (by simp)]
      rfl
    have hxlmem : ((c1 :: x') :: xs).getLast (by simp) ∈
        ((c1 :: x') :: xs) := List.getLast_mem (by simp)
    have hxlne : ((c1 :: x') :: xs).getLast (by simp) ≠ [] :=
      hneN _ hxlmem
    have hc2mem : (((c1 :: x') :: xs).getLast (by simp)).getLast hxlne ∈
        ((c1 :: x') :: xs).getLast (by simp) := List.getLast_mem hxlne
    have hglc2 : (joinSep slash ((c1 :: x') :: xs)).getLast? =
        some ((((c1 :: x') :: xs).getLast (by simp)).getLast hxlne) := by
      rw [getLast?_joinSep slash ((c1 :: x') :: xs) hneN
        (((c1 :: x') :: xs).getLast (by simp))
        (List.getLast?_eq_getLast _ (by simp))]
      exact List.getLast?_eq_getLast _ hxlne
    have hc2props := hsegchar (((c1 :: x') :: xs).getLast (by simp))
      hxlmem ((((c1 :: x') :: xs).getLast (by simp)).getLast hxlne)
      hc2mem
    have hc2slash : (((c1 :: x') :: xs).getLast (by simp)).getLast hxlne ≠
        slash :=
      (hmemN _ hxlmem _ hc2mem).2
    have hstrip_core : stripEdgeSeps (joinSep slash ((c1 :: x') :: xs)) =
        joinSep slash ((c1 :: x') :: xs) :=
      stripEdgeSeps_eq_self _ c1 _ hhead hc1.1 hglc2 hc2props.1
    have hPN : pathNormalize s =
        (if posixIsAbsolute s then [slash] else []) ++
        joinSep slash ((c1 :: x') :: xs) ++
        (if s.getLast? == some slash then [slash] else []) := by
      unfold pathNormalize
      rw [if_neg (by simpa using hnil), hN,
        if_neg (by simpa using hcore_ne)]
    have hT : stripEdgeSeps (pathNormalize s) =
        joinSep slash ((c1 :: x') :: xs) := by
      rw [hPN]
      by_cases hA : posixIsAbsolute s = true
      · rw [if_pos hA]
        by_cases hB : (s.getLast? == some slash) = true
        · rw [if_pos hB]
          have e1 : ([slash] ++ joinSep slash ((c1 :: x') :: xs) ++
              [slash] : List Char) =
              slash :: (joinSep slash ((c1 :: x') :: xs) ++ [slash]) := by
            simp
          rw [e1, stripEdgeSeps_cons_sep slash (by decide) _,
            stripEdgeSeps_append_sep _ c1 hhead hc1.1 slash (by decide),
            hstrip_core]
        · rw [if_neg hB]
          have e1 : ([slash] ++ joinSep slash ((c1 :: x') :: xs) ++
              [] : List Char) =
              slash :: joinSep slash ((c1 :: x') :: xs) := by
            simp
          rw [e1, stripEdgeSeps_cons_sep slash (by decide) _, hstrip_core]
      · rw [if_neg hA]
        by_cases hB : (s.getLast? == some slash) = true
        · rw [if_pos hB]
          have e1 : (([] : List Char) ++
              joinSep slash ((c1 :: x') :: xs) ++ [slash]) =
              joinSep slash ((c1 :: x') :: xs) ++ [slash] := by
            simp
          rw [e1, stripEdgeSeps_append_sep _ c1 hhead hc1.1 slash
            (by decide), hstrip_core]
        · rw [if_neg hB]
          have e1 : (([] : List Char) ++
              joinSep slash ((c1 :: x') :: xs) ++ []) =
              joinSep slash ((c1 :: x') :: xs) := by
            simp
          rw [e1, hstrip_core]
    have hfree : ∀ y ∈ ((c1 :: x') :: xs), ∀ c ∈ y,
        (c == slash) = false := by
      intro y hy c hc
      simp [(hmemN y hy c hc).2]
    have hsplitC : posixSplit (joinSep slash ((c1 :: x') :: xs)) =
        (c1 :: x') :: xs := by
      unfold posixSplit
      exact splitOnPred_joinSep _ slash (by simp) _ (by simp) hfree
    have habsC : posixIsAbsolute (joinSep slash ((c1 :: x') :: xs)) =
        false := by
      unfold posixIsAbsolute
      rw [hhead]
      simp [hc1slash]
    have htrailC : ((joinSep slash ((c1 :: x') :: xs)).getLast? ==
        some slash) = false := by
      rw [hglc2]
      simp [hc2slash]
    have hnormC : normSegs true ((c1 :: x') :: xs) = (c1 :: x') :: xs :=
      normSegs_of_shapeOk _ hshape
    have hPNC : pathNormalize (joinSep slash ((c1 :: x') :: xs)) =
        joinSep slash ((c1 :: x') :: xs) := by
      unfold pathNormalize
      rw [if_neg (by simpa using hcore_ne), habsC, hsplitC]
      simp only [Bool.not_false]
      rw [hnormC, if_neg (by simpa using hcore_ne), htrailC]
      simp
    have htws : ∀ c ∈ joinSep slash ((c1 :: x') :: xs),
        jsIsSpace c = false := by
      intro c hc
      rcases mem_joinSep slash _ c hc with rfl | ⟨y, hy, hcy⟩
      · decide
      · exact (hsegchar y hy c hcy).2
    rw [hnsr, hT]
    unfold normalizeSourceRoot
    rw [jsTrim_all_false _ htws, if_neg (by simpa using hcore_ne),
      hPNC, hstrip_core]

/-- C4 witness: the regular-file example satisfies the amended
invariants. -/
theorem toPythonModulePath_result_invariants_witness :
    ("xyz.abc.tee".toList ≠ ([] : List Char)) ∧
    slash ∉ "xyz.abc.tee".toList ∧
    ((bslash ∉ "/w".toList ∧ bslash ∉ "/root/xyz/abc/tee.py".toList) →
      bslash ∉ "xyz.abc.tee".toList) ∧
    ("xyz.abc.tee".toList = joinSep dotC (finalSegsOf ("/w".toList)
        ("/root/xyz/abc/tee.py".toList) ("/root".toList) [] ⟨none, none⟩
        ("linux".toList)) ∨
     ∃ w, (⟨none, none⟩ :
        ToPythonModulePathOptions).workspacePackageName = some w ∧
        "xyz.abc.tee".toList = jsTrim w) :=
  toPythonModulePath_result_invariants ("/w".toList)
    ("/root/xyz/abc/tee.py".toList) ("/root".toList) [] ⟨none, none⟩
    ("linux".toList) ("xyz.abc.tee".toList) (by decide)

/-- C7 witness: a dot-resolving source root without whitespace or
backslashes is a fixpoint of a second normalization. -/
theorem normalizeSourceRoot_idempotent_clean_witness :
    normalizeSourceRoot (normalizeSourceRoot ("a/../src".toList)) =
      normalizeSourceRoot ("a/../src".toList) :=
  normalizeSourceRoot_idempotent_clean ("a/../src".toList) (by decide)
    (by decide)

end PyImport
